import Mathlib

/-!
Verification of the Kuzzle cluster coordinator (src/lib/cluster/index.js).

JavaScript Maps are modelled as association lists in insertion order,
JavaScript Sets as duplicate-free lists in insertion order.  Methods that
would throw a TypeError in JavaScript (property access on undefined) are
modelled as Option-returning functions, none marking the throw.
-/

namespace Cluster

/-- Association list keyed by an arbitrary type with decidable equality;
models a JavaScript Map (insertion ordered, unique keys). -/
abbrev AList (κ α : Type) := List (κ × α)

variable {κ α : Type} [DecidableEq κ]

/-- Map.prototype.get: first entry with the given key. -/
def alookup : AList κ α → κ → Option α
  | [], _ => none
  | (k, v) :: rest, key => if k = key then some v else alookup rest key

/-- Map.prototype.set: replace in place when the key exists, else append. -/
def aset : AList κ α → κ → α → AList κ α
  | [], key, v => [(key, v)]
  | (k, w) :: rest, key, v =>
      if k = key then (k, v) :: rest else (k, w) :: aset rest key v

/-- Map.prototype.delete: drop the entry with the given key. -/
def aerase : AList κ α → κ → AList κ α
  | [], _ => []
  | (k, w) :: rest, key => if k = key then rest else (k, w) :: aerase rest key

/-- Keys of an association list. -/
def akeys (l : AList κ α) : List κ := l.map Prod.fst

/-- Uniqueness of keys, an invariant of every JavaScript Map. -/
def KeysNodup (l : AList κ α) : Prop := (akeys l).Nodup

/-- Set.prototype.add: append when absent. -/
def sadd (s : List κ) (x : κ) : List κ := if x ∈ s then s else s ++ [x]

/-- Set.prototype.delete: remove the element. -/
def sdel (s : List κ) (x : κ) : List κ := s.filter (fun y => y ≠ x)

theorem alookup_aset (l : AList κ α) (k key : κ) (v : α) :
    alookup (aset l k v) key = if k = key then some v else alookup l key := by
  induction l with
  | nil => simp [aset, alookup]
  | cons p rest ih =>
      obtain ⟨k₀, w⟩ := p
      by_cases h : k₀ = k
      · subst h
        simp [aset, alookup]
        by_cases h2 : k₀ = key <;> simp [h2]
      · simp [aset, h, alookup]
        by_cases h2 : k₀ = key
        · subst h2
          have : ¬ k = k₀ := fun hh => h hh.symm
          simp [alookup, this]
        · simp [alookup, h2, ih]

theorem alookup_eq_none (l : AList κ α) (k : κ) :
    alookup l k = none ↔ k ∉ akeys l := by
  induction l with
  | nil => simp [alookup, akeys]
  | cons p rest ih =>
      obtain ⟨k₀, w⟩ := p
      by_cases h : k₀ = k
      · subst h
        simp [alookup, akeys]
      · simp [alookup, akeys, h, ih, Ne.symm h]

theorem alookup_aerase (l : AList κ α) (k key : κ) (hnd : KeysNodup l) :
    alookup (aerase l k) key = if k = key then none else alookup l key := by
  induction l with
  | nil => simp [aerase, alookup]
  | cons p rest ih =>
      obtain ⟨k₀, w⟩ := p
      rw [KeysNodup, akeys] at hnd
      simp only [List.map_cons, List.nodup_cons] at hnd
      obtain ⟨hk₀, hrest⟩ := hnd
      by_cases h : k₀ = k
      · subst h
        rw [aerase, if_pos rfl]
        by_cases h2 : k₀ = key
        · subst h2
          rw [if_pos rfl]
          exact (alookup_eq_none rest k₀).mpr hk₀
        · rw [if_neg h2, alookup, if_neg h2]
      · rw [aerase, if_neg h]
        by_cases h2 : k₀ = key
        · subst h2
          have hne : ¬ k = k₀ := fun hh => h hh.symm
          simp [alookup, hne]
        · rw [alookup, if_neg h2, ih hrest, alookup, if_neg h2]

theorem mem_akeys_aset (l : AList κ α) (k key : κ) (v : α) :
    key ∈ akeys (aset l k v) ↔ key ∈ akeys l ∨ key = k := by
  induction l with
  | nil => simp [aset, akeys]
  | cons p rest ih =>
      obtain ⟨k₀, w⟩ := p
      simp only [akeys, List.map_cons, List.mem_cons] at ih ⊢
      by_cases h : k₀ = k
      · subst h
        simp [aset, akeys]
        tauto
      · simp [aset, akeys, h, ih]
        tauto

theorem mem_akeys_aerase (l : AList κ α) (k key : κ) :
    key ∈ akeys (aerase l k) → key ∈ akeys l := by
  induction l with
  | nil => simp [aerase]
  | cons p rest ih =>
      obtain ⟨k₀, w⟩ := p
      simp only [akeys, List.map_cons, List.mem_cons] at ih ⊢
      by_cases h : k₀ = k
      · subst h
        simp [aerase, akeys]
        tauto
      · simp [aerase, akeys, h] at ih ⊢
        tauto

theorem keysNodup_aset (l : AList κ α) (k : κ) (v : α) (hnd : KeysNodup l) :
    KeysNodup (aset l k v) := by
  induction l with
  | nil => simp [aset, KeysNodup, akeys]
  | cons p rest ih =>
      obtain ⟨k₀, w⟩ := p
      rw [KeysNodup, akeys] at hnd
      simp only [List.map_cons, List.nodup_cons] at hnd
      obtain ⟨hk₀, hrest⟩ := hnd
      by_cases h : k₀ = k
      · subst h
        rw [KeysNodup, akeys, aset, if_pos rfl]
        simp only [List.map_cons, List.nodup_cons]
        exact ⟨hk₀, hrest⟩
      · rw [KeysNodup, akeys, aset, if_neg h]
        simp only [List.map_cons, List.nodup_cons]
        refine ⟨fun hmem => ?_, ih hrest⟩
        rcases (mem_akeys_aset rest k k₀ v).mp hmem with h1 | h1
        · exact hk₀ h1
        · exact h h1

theorem keysNodup_aerase (l : AList κ α) (k : κ) (hnd : KeysNodup l) :
    KeysNodup (aerase l k) := by
  induction l with
  | nil => simp [aerase, KeysNodup, akeys]
  | cons p rest ih =>
      obtain ⟨k₀, w⟩ := p
      rw [KeysNodup, akeys] at hnd
      simp only [List.map_cons, List.nodup_cons] at hnd
      obtain ⟨hk₀, hrest⟩ := hnd
      by_cases h : k₀ = k
      · subst h
        simpa [aerase, KeysNodup, akeys] using hrest
      · rw [KeysNodup, akeys, aerase, if_neg h]
        simp only [List.map_cons, List.nodup_cons]
        exact ⟨fun hmem => hk₀ (mem_akeys_aerase rest k k₀ hmem), ih hrest⟩

/-!
The room replica (src/lib/cluster/index.js, constructor lines 100-105):
flat is a Map from room id to a room value, tree is a Map from index to a
Map from collection to a Set of room ids.
-/

/-- Entry of the flat map: the value stored by setRoomCount
(src/lib/cluster/index.js lines 584-588). Counts are stored after
parseInt, modelled here as an integer. -/
structure Room where
  index : String
  collection : String
  count : Int
deriving DecidableEq, Repr

/-- The replica of realtime rooms held by a node. -/
structure Rooms where
  flat : AList String Room
  tree : AList String (AList String (List String))
deriving DecidableEq, Repr

/-- Replica of a node that just started: both maps empty. -/
def emptyRooms : Rooms := ⟨[], []⟩

/-- Tree lookup helper: the set of room ids stored at tree[index][collection],
empty when either level is absent. -/
def treeGet (st : Rooms) (index collection : String) : List String :=
  match alookup st.tree index with
  | none => []
  | some collections => (alookup collections collection).getD []

/-- KuzzleCluster.deleteRoomCount (src/lib/cluster/index.js lines 533-556).
Returns none where the JavaScript code would throw a TypeError
(tree missing the entry recorded in flat). -/
def deleteRoomCount (roomId : String) (st : Rooms) : Option Rooms :=
  match alookup st.flat roomId with
  | none => some st
  | some room =>
    match alookup st.tree room.index with
    | none => none
    | some collections =>
      match alookup collections room.collection with
      | none => none
      | some rooms =>
        if (sdel rooms roomId).length = 0 then
          if (aerase collections room.collection).length = 0 then
            some ⟨aerase st.flat roomId, aerase st.tree room.index⟩
          else
            some ⟨aerase st.flat roomId,
                  aset st.tree room.index (aerase collections room.collection)⟩
        else
          some ⟨aerase st.flat roomId,
                aset st.tree room.index
                  (aset collections room.collection (sdel rooms roomId))⟩

/-- KuzzleCluster.setRoomCount (src/lib/cluster/index.js lines 577-604).
The count argument is the result of parseInt on the raw value. -/
def setRoomCount (index collection roomId : String) (count : Int) (st : Rooms) :
    Option Rooms :=
  if count = 0 then
    deleteRoomCount roomId st
  else
    some ⟨aset st.flat roomId ⟨index, collection, count⟩,
          aset st.tree index
            (aset ((alookup st.tree index).getD []) collection
              (sadd ((alookup ((alookup st.tree index).getD []) collection).getD [])
                roomId))⟩

/-- A call to one of the two replica mutators. -/
inductive RoomOp where
  | set (index collection roomId : String) (count : Int)
  | del (roomId : String)
deriving DecidableEq, Repr

/-- Apply one mutator call. -/
def applyOp (op : RoomOp) (st : Rooms) : Option Rooms :=
  match op with
  | .set index collection roomId count => setRoomCount index collection roomId count st
  | .del roomId => deleteRoomCount roomId st

/-- Run a sequence of mutator calls from a starting state. -/
def runOps (ops : List RoomOp) (st : Rooms) : Option Rooms :=
  match ops with
  | [] => some st
  | op :: rest => (applyOp op st).bind (runOps rest)

theorem mem_sadd (s : List κ) (x y : κ) : y ∈ sadd s x ↔ y ∈ s ∨ y = x := by
  unfold sadd
  by_cases h : x ∈ s
  · simp only [if_pos h]
    constructor
    · exact fun hy => Or.inl hy
    · intro hy
      rcases hy with hy | hy
      · exact hy
      · exact hy ▸ h
  · simp [if_neg h]

theorem nodup_sadd (s : List κ) (x : κ) (h : s.Nodup) : (sadd s x).Nodup := by
  unfold sadd
  by_cases hx : x ∈ s
  · simpa [if_pos hx]
  · rw [if_neg hx, List.nodup_append]
    simp [h, hx]

theorem self_mem_sadd (s : List κ) (x : κ) : x ∈ sadd s x := by
  rw [mem_sadd]
  exact Or.inr rfl

theorem sadd_ne_nil (s : List κ) (x : κ) : sadd s x ≠ [] := by
  intro h
  have := self_mem_sadd s x
  rw [h] at this
  exact List.not_mem_nil x this

theorem mem_sdel (s : List κ) (x y : κ) : y ∈ sdel s x ↔ y ∈ s ∧ y ≠ x := by
  simp [sdel]

theorem nodup_sdel (s : List κ) (x : κ) (h : s.Nodup) : (sdel s x).Nodup :=
  List.Nodup.filter _ h

theorem aset_ne_nil (l : AList κ α) (k : κ) (v : α) : aset l k v ≠ [] := by
  cases l with
  | nil => simp [aset]
  | cons p rest =>
      obtain ⟨k₀, w⟩ := p
      unfold aset
      by_cases h : k₀ = k <;> simp [h]

/-!
Invariant of the replica (spec section 8, invariant 1) and its preservation.
-/

/-- Structural well-formedness of the tree: unique keys at every level,
no empty collection map and no empty room set kept alive. -/
def TreeWF (st : Rooms) : Prop :=
  KeysNodup st.tree ∧
  ∀ i cs, alookup st.tree i = some cs →
    KeysNodup cs ∧ cs ≠ [] ∧ ∀ c rs, alookup cs c = some rs → rs.Nodup ∧ rs ≠ []

/-- Every room of flat is listed in the tree under its stored path. -/
def FlatTree (st : Rooms) : Prop :=
  ∀ r room, alookup st.flat r = some room → r ∈ treeGet st room.index room.collection

/-- Every room id of a tree set is present in flat with that path. -/
def TreeFlat (st : Rooms) : Prop :=
  ∀ i c r, r ∈ treeGet st i c →
    ∃ room, alookup st.flat r = some room ∧ room.index = i ∧ room.collection = c

/-- Full internal invariant of the replica. -/
def Inv (st : Rooms) : Prop := KeysNodup st.flat ∧ TreeWF st ∧ FlatTree st ∧ TreeFlat st

/-- The invariant claimed by the specification, stated as in the claim:
each room id of flat sits in exactly one tree set, namely the one at its
recorded path, and each room id found in the tree is known to flat. -/
def ClaimC1Inv (st : Rooms) : Prop :=
  (∀ r room, alookup st.flat r = some room →
    ∀ i c, r ∈ treeGet st i c ↔ i = room.index ∧ c = room.collection) ∧
  (∀ i c r, r ∈ treeGet st i c → ∃ room, alookup st.flat r = some room)

/-- Binding of room ids to a fixed (index, collection) pair: in the cluster a
room id is a fingerprint of index, collection and filters, so every
setRoomCount call for one room id carries one fixed path. -/
def RespectsTags (tag : String → String × String) (st : Rooms) : Prop :=
  ∀ r room, alookup st.flat r = some room → (room.index, room.collection) = tag r

/-- An operation respects the room id fingerprint map. -/
def OpRespects (tag : String → String × String) : RoomOp → Prop
  | .set index collection roomId _ => (index, collection) = tag roomId
  | .del _ => True

theorem inv_claimC1Inv (st : Rooms) (h : Inv st) : ClaimC1Inv st := by
  obtain ⟨-, -, hft, htf⟩ := h
  constructor
  · intro r room hr i c
    constructor
    · intro hmem
      obtain ⟨room', hr', hi, hc⟩ := htf i c r hmem
      rw [hr] at hr'
      cases hr'
      exact ⟨hi.symm, hc.symm⟩
    · rintro ⟨rfl, rfl⟩
      exact hft r room hr
  · intro i c r hmem
    obtain ⟨room', hr', -, -⟩ := htf i c r hmem
    exact ⟨room', hr'⟩

theorem treeGet_eq (st : Rooms) (i c : String) :
    treeGet st i c = (alookup ((alookup st.tree i).getD []) c).getD [] := by
  unfold treeGet
  cases alookup st.tree i with
  | none => simp [alookup]
  | some cs => rfl

theorem colNodup_of_inv (st : Rooms) (hInv : Inv st) (i : String) :
    KeysNodup ((alookup st.tree i).getD []) := by
  cases htr : alookup st.tree i with
  | none => simp [KeysNodup, akeys]
  | some cs => exact ((hInv.2.1.2 i cs htr).1)

theorem roomSet_nodup_of_inv (st : Rooms) (hInv : Inv st) (i c : String) :
    ((alookup ((alookup st.tree i).getD []) c).getD []).Nodup := by
  cases htr : alookup st.tree i with
  | none => simp [alookup]
  | some cs =>
      rw [Option.getD_some]
      cases hcol : alookup cs c with
      | none => simp
      | some rs =>
          rw [Option.getD_some]
          exact ((hInv.2.1.2 i cs htr).2.2 c rs hcol).1

theorem setRoomCount_inv (tag : String → String × String) (i c r : String)
    (count : Int) (st : Rooms) (hInv : Inv st) (hTag : RespectsTags tag st)
    (hop : (i, c) = tag r) (hcount : count ≠ 0) :
    ∃ st', setRoomCount i c r count st = some st' ∧ Inv st' ∧ RespectsTags tag st' := by
  unfold setRoomCount
  rw [if_neg hcount]
  refine ⟨_, rfl, ?_, ?_⟩
  case _ =>
    -- definitional shorthands used below
    set collections := (alookup st.tree i).getD [] with hcollections
    set roomSet := (alookup collections c).getD [] with hroomSet
    have hcolnodup : KeysNodup collections := colNodup_of_inv st hInv i
    have hrsnodup : roomSet.Nodup := roomSet_nodup_of_inv st hInv i c
    have tg' : ∀ i' c',
        treeGet ⟨aset st.flat r ⟨i, c, count⟩,
                 aset st.tree i (aset collections c (sadd roomSet r))⟩ i' c' =
          if i' = i then
            (if c' = c then sadd roomSet r else (alookup collections c').getD [])
          else treeGet st i' c' := by
      intro i' c'
      rw [treeGet_eq]
      simp only
      rw [alookup_aset]
      by_cases hi : i = i'
      · subst hi
        rw [if_pos rfl, if_pos rfl, Option.getD_some, alookup_aset]
        by_cases hc : c = c'
        · subst hc
          simp
        · rw [if_neg hc, if_neg (fun h => hc h.symm)]
      · rw [if_neg hi, if_neg (fun h => hi h.symm), treeGet_eq]
    obtain ⟨hflnd, ⟨htrnd, htrprops⟩, hft, htf⟩ := hInv
    refine ⟨keysNodup_aset _ _ _ hflnd, ⟨keysNodup_aset _ _ _ htrnd, ?_⟩, ?_, ?_⟩
    · -- tree well-formedness
      intro i' cs' hcs'
      rw [alookup_aset] at hcs'
      by_cases hi : i = i'
      · rw [if_pos hi] at hcs'
        cases hcs'
        refine ⟨keysNodup_aset _ _ _ hcolnodup, aset_ne_nil _ _ _, ?_⟩
        intro c' rs' hrs'
        rw [alookup_aset] at hrs'
        by_cases hc : c = c'
        · rw [if_pos hc] at hrs'
          cases hrs'
          exact ⟨nodup_sadd _ _ hrsnodup, sadd_ne_nil _ _⟩
        · rw [if_neg hc] at hrs'
          cases htr : alookup st.tree i with
          | none =>
              rw [hcollections, htr, Option.getD_none, alookup] at hrs'
              cases hrs'
          | some cs =>
              rw [hcollections, htr, Option.getD_some] at hrs'
              exact (htrprops i cs htr).2.2 c' rs' hrs'
      · rw [if_neg hi] at hcs'
        exact htrprops i' cs' hcs'
    · -- flat to tree
      intro r' room' hr'
      rw [alookup_aset] at hr'
      rw [tg']
      by_cases hr : r = r'
      · rw [if_pos hr] at hr'
        subst hr
        cases hr'
        show r ∈ if i = i then (if c = c then sadd roomSet r
          else (alookup collections c).getD []) else treeGet st i c
        rw [if_pos rfl, if_pos rfl]
        exact self_mem_sadd _ _
      · rw [if_neg hr] at hr'
        have hmem := hft r' room' hr'
        by_cases hi : room'.index = i
        · rw [if_pos hi]
          rw [hi, treeGet_eq, ← hcollections] at hmem
          by_cases hc : room'.collection = c
          · rw [if_pos hc]
            rw [hc, ← hroomSet] at hmem
            exact (mem_sadd _ _ _).mpr (Or.inl hmem)
          · rw [if_neg hc]
            exact hmem
        · rw [if_neg hi]
          exact hmem
    · -- tree to flat
      intro i' c' r' hmem
      rw [tg'] at hmem
      by_cases hi : i' = i
      · rw [if_pos hi] at hmem
        by_cases hc : c' = c
        · rw [if_pos hc] at hmem
          rcases (mem_sadd _ _ _).mp hmem with hmem | hmem
          · -- old member of the set at (i, c)
            by_cases hr : r = r'
            · subst hr
              refine ⟨⟨i, c, count⟩, ?_, hi.symm ▸ rfl, hc.symm ▸ rfl⟩
              rw [alookup_aset, if_pos rfl]
            · have hmem2 : r' ∈ treeGet st i c := by
                rw [treeGet_eq, ← hcollections, ← hroomSet]
                exact hmem
              obtain ⟨room', hlk, hidx, hcol⟩ := htf i c r' hmem2
              refine ⟨room', ?_, hi ▸ hidx, hc ▸ hcol⟩
              rw [alookup_aset, if_neg hr]
              exact hlk
          · subst hmem
            refine ⟨⟨i, c, count⟩, ?_, hi.symm ▸ rfl, hc.symm ▸ rfl⟩
            rw [alookup_aset, if_pos rfl]
        · rw [if_neg hc] at hmem
          have hmem2 : r' ∈ treeGet st i c' := by
            rw [treeGet_eq, ← hcollections]
            exact hmem
          obtain ⟨room', hlk, hidx, hcol⟩ := htf i c' r' hmem2
          have hr : r ≠ r' := by
            intro hrr
            subst hrr
            have h2 := hTag r room' hlk
            rw [hidx, hcol, ← hop] at h2
            exact hc (congrArg Prod.snd h2)
          refine ⟨room', ?_, hi ▸ hidx, hcol⟩
          rw [alookup_aset, if_neg hr]
          exact hlk
      · rw [if_neg hi] at hmem
        obtain ⟨room', hlk, hidx, hcol⟩ := htf i' c' r' hmem
        have hr : r ≠ r' := by
          intro hrr
          subst hrr
          have h2 := hTag r room' hlk
          rw [hidx, hcol, ← hop] at h2
          exact hi (congrArg Prod.fst h2)
        refine ⟨room', ?_, hidx, hcol⟩
        rw [alookup_aset, if_neg hr]
        exact hlk
  case _ =>
    -- tag discipline on the new flat map
    intro r' room' hr'
    rw [alookup_aset] at hr'
    by_cases hr : r = r'
    · rw [if_pos hr] at hr'
      cases hr'
      exact hr ▸ hop
    · rw [if_neg hr] at hr'
      exact hTag r' room' hr'

theorem deleteRoomCount_inv (tag : String → String × String) (r : String)
    (st : Rooms) (hInv : Inv st) (hTag : RespectsTags tag st) :
    ∃ st', deleteRoomCount r st = some st' ∧ Inv st' ∧ RespectsTags tag st' := by
  cases hfl : alookup st.flat r with
  | none =>
      refine ⟨st, ?_, hInv, hTag⟩
      unfold deleteRoomCount
      rw [hfl]
  | some room =>
      obtain ⟨hflnd, ⟨htrnd, htrprops⟩, hft, htf⟩ := hInv
      have hmem0 : r ∈ treeGet st room.index room.collection := hft r room hfl
      cases htr : alookup st.tree room.index with
      | none =>
          rw [treeGet_eq, htr] at hmem0
          simp [alookup] at hmem0
      | some collections =>
          cases hcol : alookup collections room.collection with
          | none =>
              rw [treeGet_eq, htr, Option.getD_some, hcol] at hmem0
              simp at hmem0
          | some rooms =>
              have hmem : r ∈ rooms := by
                rw [treeGet_eq, htr, Option.getD_some, hcol, Option.getD_some] at hmem0
                exact hmem0
              obtain ⟨colNodup, colNe, hinner⟩ := htrprops room.index collections htr
              obtain ⟨roomsNodup, roomsNe⟩ := hinner room.collection rooms hcol
              have hfl' : ∀ r', alookup (aerase st.flat r) r' =
                  if r = r' then none else alookup st.flat r' :=
                fun r' => alookup_aerase _ _ _ hflnd
              have hRpath : ∀ i c, r ∈ treeGet st i c →
                  i = room.index ∧ c = room.collection := by
                intro i c hm
                obtain ⟨room₁, hlk₁, hidx₁, hcol₁⟩ := htf i c r hm
                rw [hfl] at hlk₁
                cases hlk₁
                exact ⟨hidx₁.symm, hcol₁.symm⟩
              have hred : deleteRoomCount r st =
                  if (sdel rooms r).length = 0 then
                    if (aerase collections room.collection).length = 0 then
                      some ⟨aerase st.flat r, aerase st.tree room.index⟩
                    else
                      some ⟨aerase st.flat r,
                            aset st.tree room.index
                              (aerase collections room.collection)⟩
                  else
                    some ⟨aerase st.flat r,
                          aset st.tree room.index
                            (aset collections room.collection (sdel rooms r))⟩ := by
                simp only [deleteRoomCount, hfl, htr, hcol]
              by_cases hlen : (sdel rooms r).length = 0
              · have hsdelnil : sdel rooms r = [] := List.length_eq_zero.mp hlen
                have hall : ∀ r₂ ∈ rooms, r₂ = r := by
                  intro r₂ h₂
                  by_contra hne
                  have h3 : r₂ ∈ sdel rooms r := (mem_sdel _ _ _).mpr ⟨h₂, hne⟩
                  rw [hsdelnil] at h3
                  exact List.not_mem_nil _ h3
                by_cases hclen : (aerase collections room.collection).length = 0
                · -- the room set and the collection map both become empty:
                  -- the whole index entry is pruned
                  have hacnil : aerase collections room.collection = [] :=
                    List.length_eq_zero.mp hclen
                  have hnocol : ∀ c', c' ≠ room.collection →
                      alookup collections c' = none := by
                    intro c' hc'
                    have h4 := alookup_aerase collections room.collection c' colNodup
                    rw [hacnil, if_neg (fun h => hc' h.symm)] at h4
                    rw [← h4]
                    rfl
                  refine ⟨_, by rw [hred, if_pos hlen, if_pos hclen], ?_, ?_⟩
                  · have tg' : ∀ i' c',
                        treeGet ⟨aerase st.flat r, aerase st.tree room.index⟩ i' c' =
                          if i' = room.index then [] else treeGet st i' c' := by
                      intro i' c'
                      rw [treeGet_eq]
                      simp only
                      rw [alookup_aerase _ _ _ htrnd]
                      by_cases hi : room.index = i'
                      · rw [if_pos hi, if_pos hi.symm]
                        rfl
                      · rw [if_neg hi, if_neg (fun h => hi h.symm), treeGet_eq]
                    refine ⟨keysNodup_aerase _ _ hflnd,
                            ⟨keysNodup_aerase _ _ htrnd, ?_⟩, ?_, ?_⟩
                    · intro i' cs' hcs'
                      rw [alookup_aerase _ _ _ htrnd] at hcs'
                      by_cases hi : room.index = i'
                      · rw [if_pos hi] at hcs'
                        cases hcs'
                      · rw [if_neg hi] at hcs'
                        exact htrprops i' cs' hcs'
                    · intro r' room' hr'
                      rw [hfl'] at hr'
                      by_cases hr : r = r'
                      · rw [if_pos hr] at hr'
                        cases hr'
                      · rw [if_neg hr] at hr'
                        have hm := hft r' room' hr'
                        rw [tg']
                        by_cases hi : room'.index = room.index
                        · exfalso
                          rw [hi] at hm
                          by_cases hc : room'.collection = room.collection
                          · rw [hc, treeGet_eq, htr, Option.getD_some, hcol,
                              Option.getD_some] at hm
                            exact hr (hall r' hm).symm
                          · rw [treeGet_eq, htr, Option.getD_some,
                              hnocol room'.collection hc] at hm
                            simp at hm
                        · rw [if_neg hi]
                          exact hm
                    · intro i' c' r' hmem'
                      rw [tg'] at hmem'
                      by_cases hi : i' = room.index
                      · rw [if_pos hi] at hmem'
                        cases hmem'
                      · rw [if_neg hi] at hmem'
                        obtain ⟨room₁, hlk₁, hidx₁, hcol₁⟩ := htf i' c' r' hmem'
                        have hr : r ≠ r' := by
                          intro hrr
                          subst hrr
                          exact hi (hRpath i' c' hmem').1
                        refine ⟨room₁, ?_, hidx₁, hcol₁⟩
                        rw [hfl', if_neg hr]
                        exact hlk₁
                  · intro r' room' hr'
                    rw [hfl'] at hr'
                    by_cases hr : r = r'
                    · rw [if_pos hr] at hr'
                      cases hr'
                    · rw [if_neg hr] at hr'
                      exact hTag r' room' hr'
                · -- the room set empties but other collections remain under
                  -- the index: only the collection entry is pruned
                  have hcnnil : aerase collections room.collection ≠ [] :=
                    fun h => hclen (by rw [h]; rfl)
                  refine ⟨_, by rw [hred, if_pos hlen, if_neg hclen], ?_, ?_⟩
                  · have tg' : ∀ i' c',
                        treeGet ⟨aerase st.flat r,
                          aset st.tree room.index
                            (aerase collections room.collection)⟩ i' c' =
                          if i' = room.index then
                            (if c' = room.collection then []
                              else (alookup collections c').getD [])
                          else treeGet st i' c' := by
                      intro i' c'
                      rw [treeGet_eq]
                      simp only
                      rw [alookup_aset]
                      by_cases hi : room.index = i'
                      · rw [if_pos hi, if_pos hi.symm, Option.getD_some,
                          alookup_aerase _ _ _ colNodup]
                        by_cases hc : room.collection = c'
                        · rw [if_pos hc, if_pos hc.symm]
                          rfl
                        · rw [if_neg hc, if_neg (fun h => hc h.symm)]
                      · rw [if_neg hi, if_neg (fun h => hi h.symm), treeGet_eq]
                    refine ⟨keysNodup_aerase _ _ hflnd,
                            ⟨keysNodup_aset _ _ _ htrnd, ?_⟩, ?_, ?_⟩
                    · intro i' cs' hcs'
                      rw [alookup_aset] at hcs'
                      by_cases hi : room.index = i'
                      · rw [if_pos hi] at hcs'
                        cases hcs'
                        refine ⟨keysNodup_aerase _ _ colNodup, hcnnil, ?_⟩
                        intro c' rs' hrs'
                        rw [alookup_aerase _ _ _ colNodup] at hrs'
                        by_cases hc : room.collection = c'
                        · rw [if_pos hc] at hrs'
                          cases hrs'
                        · rw [if_neg hc] at hrs'
                          exact hinner c' rs' hrs'
                      · rw [if_neg hi] at hcs'
                        exact htrprops i' cs' hcs'
                    · intro r' room' hr'
                      rw [hfl'] at hr'
                      by_cases hr : r = r'
                      · rw [if_pos hr] at hr'
                        cases hr'
                      · rw [if_neg hr] at hr'
                        have hm := hft r' room' hr'
                        rw [tg']
                        by_cases hi : room'.index = room.index
                        · rw [if_pos hi]
                          rw [hi] at hm
                          by_cases hc : room'.collection = room.collection
                          · exfalso
                            rw [hc, treeGet_eq, htr, Option.getD_some, hcol,
                              Option.getD_some] at hm
                            exact hr (hall r' hm).symm
                          · rw [if_neg hc]
                            rw [treeGet_eq, htr, Option.getD_some] at hm
                            exact hm
                        · rw [if_neg hi]
                          exact hm
                    · intro i' c' r' hmem'
                      rw [tg'] at hmem'
                      by_cases hi : i' = room.index
                      · rw [if_pos hi] at hmem'
                        by_cases hc : c' = room.collection
                        · rw [if_pos hc] at hmem'
                          cases hmem'
                        · rw [if_neg hc] at hmem'
                          have hm2 : r' ∈ treeGet st room.index c' := by
                            rw [treeGet_eq, htr, Option.getD_some]
                            exact hmem'
                          obtain ⟨room₁, hlk₁, hidx₁, hcol₁⟩ :=
                            htf room.index c' r' hm2
                          have hr : r ≠ r' := by
                            intro hrr
                            subst hrr
                            exact hc (hRpath room.index c' hm2).2
                          refine ⟨room₁, ?_, hi ▸ hidx₁, hcol₁⟩
                          rw [hfl', if_neg hr]
                          exact hlk₁
                      · rw [if_neg hi] at hmem'
                        obtain ⟨room₁, hlk₁, hidx₁, hcol₁⟩ := htf i' c' r' hmem'
                        have hr : r ≠ r' := by
                          intro hrr
                          subst hrr
                          exact hi (hRpath i' c' hmem').1
                        refine ⟨room₁, ?_, hidx₁, hcol₁⟩
                        rw [hfl', if_neg hr]
                        exact hlk₁
                  · intro r' room' hr'
                    rw [hfl'] at hr'
                    by_cases hr : r = r'
                    · rw [if_pos hr] at hr'
                      cases hr'
                    · rw [if_neg hr] at hr'
                      exact hTag r' room' hr'
              · -- other subscribers remain: only the id is dropped from the set
                have hsne : sdel rooms r ≠ [] :=
                  fun h => hlen (by rw [h]; rfl)
                refine ⟨_, by rw [hred, if_neg hlen], ?_, ?_⟩
                · have tg' : ∀ i' c',
                      treeGet ⟨aerase st.flat r,
                        aset st.tree room.index
                          (aset collections room.collection (sdel rooms r))⟩ i' c' =
                        if i' = room.index then
                          (if c' = room.collection then sdel rooms r
                            else (alookup collections c').getD [])
                        else treeGet st i' c' := by
                    intro i' c'
                    rw [treeGet_eq]
                    simp only
                    rw [alookup_aset]
                    by_cases hi : room.index = i'
                    · rw [if_pos hi, if_pos hi.symm, Option.getD_some, alookup_aset]
                      by_cases hc : room.collection = c'
                      · rw [if_pos hc, if_pos hc.symm]
                        rfl
                      · rw [if_neg hc, if_neg (fun h => hc h.symm)]
                    · rw [if_neg hi, if_neg (fun h => hi h.symm), treeGet_eq]
                  refine ⟨keysNodup_aerase _ _ hflnd,
                          ⟨keysNodup_aset _ _ _ htrnd, ?_⟩, ?_, ?_⟩
                  · intro i' cs' hcs'
                    rw [alookup_aset] at hcs'
                    by_cases hi : room.index = i'
                    · rw [if_pos hi] at hcs'
                      cases hcs'
                      refine ⟨keysNodup_aset _ _ _ colNodup, aset_ne_nil _ _ _, ?_⟩
                      intro c' rs' hrs'
                      rw [alookup_aset] at hrs'
                      by_cases hc : room.collection = c'
                      · rw [if_pos hc] at hrs'
                        cases hrs'
                        exact ⟨nodup_sdel _ _ roomsNodup, hsne⟩
                      · rw [if_neg hc] at hrs'
                        exact hinner c' rs' hrs'
                    · rw [if_neg hi] at hcs'
                      exact htrprops i' cs' hcs'
                  · intro r' room' hr'
                    rw [hfl'] at hr'
                    by_cases hr : r = r'
                    · rw [if_pos hr] at hr'
                      cases hr'
                    · rw [if_neg hr] at hr'
                      have hm := hft r' room' hr'
                      rw [tg']
                      by_cases hi : room'.index = room.index
                      · rw [if_pos hi]
                        rw [hi] at hm
                        by_cases hc : room'.collection = room.collection
                        · rw [if_pos hc]
                          rw [hc, treeGet_eq, htr, Option.getD_some, hcol,
                            Option.getD_some] at hm
                          exact (mem_sdel _ _ _).mpr ⟨hm, fun h => hr h.symm⟩
                        · rw [if_neg hc]
                          rw [treeGet_eq, htr, Option.getD_some] at hm
                          exact hm
                      · rw [if_neg hi]
                        exact hm
                  · intro i' c' r' hmem'
                    rw [tg'] at hmem'
                    by_cases hi : i' = room.index
                    · rw [if_pos hi] at hmem'
                      by_cases hc : c' = room.collection
                      · rw [if_pos hc] at hmem'
                        obtain ⟨hin, hne⟩ := (mem_sdel _ _ _).mp hmem'
                        have hm2 : r' ∈ treeGet st room.index room.collection := by
                          rw [treeGet_eq, htr, Option.getD_some, hcol,
                            Option.getD_some]
                          exact hin
                        obtain ⟨room₁, hlk₁, hidx₁, hcol₁⟩ :=
                          htf room.index room.collection r' hm2
                        refine ⟨room₁, ?_, hi ▸ hidx₁, hc ▸ hcol₁⟩
                        rw [hfl', if_neg (fun h => hne h.symm)]
                        exact hlk₁
                      · rw [if_neg hc] at hmem'
                        have hm2 : r' ∈ treeGet st room.index c' := by
                          rw [treeGet_eq, htr, Option.getD_some]
                          exact hmem'
                        obtain ⟨room₁, hlk₁, hidx₁, hcol₁⟩ :=
                          htf room.index c' r' hm2
                        have hr : r ≠ r' := by
                          intro hrr
                          subst hrr
                          exact hc (hRpath room.index c' hm2).2
                        refine ⟨room₁, ?_, hi ▸ hidx₁, hcol₁⟩
                        rw [hfl', if_neg hr]
                        exact hlk₁
                    · rw [if_neg hi] at hmem'
                      obtain ⟨room₁, hlk₁, hidx₁, hcol₁⟩ := htf i' c' r' hmem'
                      have hr : r ≠ r' := by
                        intro hrr
                        subst hrr
                        exact hi (hRpath i' c' hmem').1
                      refine ⟨room₁, ?_, hidx₁, hcol₁⟩
                      rw [hfl', if_neg hr]
                      exact hlk₁
                · intro r' room' hr'
                  rw [hfl'] at hr'
                  by_cases hr : r = r'
                  · rw [if_pos hr] at hr'
                    cases hr'
                  · rw [if_neg hr] at hr'
                    exact hTag r' room' hr'

theorem setRoomCount_inv_all (tag : String → String × String) (i c r : String)
    (count : Int) (st : Rooms) (hInv : Inv st) (hTag : RespectsTags tag st)
    (hop : (i, c) = tag r) :
    ∃ st', setRoomCount i c r count st = some st' ∧ Inv st' ∧ RespectsTags tag st' := by
  by_cases hc : count = 0
  · unfold setRoomCount
    rw [if_pos hc]
    exact deleteRoomCount_inv tag r st hInv hTag
  · exact setRoomCount_inv tag i c r count st hInv hTag hop hc

theorem runOps_inv (tag : String → String × String) (ops : List RoomOp) (st : Rooms)
    (hInv : Inv st) (hTag : RespectsTags tag st)
    (hops : ∀ op ∈ ops, OpRespects tag op) :
    ∃ st', runOps ops st = some st' ∧ Inv st' ∧ RespectsTags tag st' := by
  induction ops generalizing st with
  | nil => exact ⟨st, rfl, hInv, hTag⟩
  | cons op rest ih =>
      have hop := hops op (List.mem_cons_self _ _)
      have hrest : ∀ o ∈ rest, OpRespects tag o :=
        fun o ho => hops o (List.mem_cons_of_mem _ ho)
      cases op with
      | set i c r count =>
          obtain ⟨st1, heq, hInv1, hTag1⟩ :=
            setRoomCount_inv_all tag i c r count st hInv hTag hop
          obtain ⟨st2, heq2, hInv2, hTag2⟩ := ih st1 hInv1 hTag1 hrest
          refine ⟨st2, ?_, hInv2, hTag2⟩
          simp only [runOps, applyOp, heq, Option.some_bind]
          exact heq2
      | del r =>
          obtain ⟨st1, heq, hInv1, hTag1⟩ := deleteRoomCount_inv tag r st hInv hTag
          obtain ⟨st2, heq2, hInv2, hTag2⟩ := ih st1 hInv1 hTag1 hrest
          refine ⟨st2, ?_, hInv2, hTag2⟩
          simp only [runOps, applyOp, heq, Option.some_bind]
          exact heq2

theorem inv_empty : Inv emptyRooms := by
  refine ⟨?_, ⟨?_, ?_⟩, ?_, ?_⟩
  · simp [KeysNodup, akeys, emptyRooms]
  · simp [KeysNodup, akeys, emptyRooms]
  · intro i cs h
    simp [emptyRooms, alookup] at h
  · intro r room h
    simp [emptyRooms, alookup] at h
  · intro i c r h
    simp [emptyRooms, treeGet, alookup] at h

theorem respectsTags_empty (tag : String → String × String) :
    RespectsTags tag emptyRooms := by
  intro r room h
  simp [emptyRooms, alookup] at h

/-- C1 counterexample: the invariant claimed for arbitrary call sequences
fails on the code.  Calling setRoomCount twice for the same roomId under two
different indexes leaves the roomId in two tree sets at once, while flat
records only the second path. -/
theorem claimC1_counterexample :
    ¬ (∀ ops st, runOps ops emptyRooms = some st → ClaimC1Inv st) := by
  intro h
  obtain ⟨h3, -⟩ :=
    h [RoomOp.set "i1" "c" "r" 1, RoomOp.set "i2" "c" "r" 1]
      ⟨[("r", ⟨"i2", "c", 1⟩)], [("i1", [("c", ["r"])]), ("i2", [("c", ["r"])])]⟩
      (by decide)
  have h4 := h3 "r" ⟨"i2", "c", 1⟩ (by decide) "i1" "c"
  have h5 := (h4.mp (by decide)).1
  exact absurd h5 (by decide)

/-- C1 (amended): in every state reachable from the empty replica by
setRoomCount and deleteRoomCount calls in which each roomId always carries
one fixed (index, collection) pair — as in the cluster, where a roomId is a
fingerprint of index, collection and filters — every roomId of flat appears
in exactly one tree set, namely tree[index][collection] for the path stored
in flat, and every roomId of a tree set is present in flat. -/
theorem claimC1_replica_invariant (ops : List RoomOp) (st : Rooms)
    (tag : String → String × String) (hops : ∀ op ∈ ops, OpRespects tag op)
    (hrun : runOps ops emptyRooms = some st) : ClaimC1Inv st := by
  obtain ⟨st', heq, hInv, -⟩ :=
    runOps_inv tag ops emptyRooms inv_empty (respectsTags_empty tag) hops
  rw [hrun] at heq
  cases heq
  exact inv_claimC1Inv _ hInv

/-- C1 witness: the amended theorem applied to a concrete consistent call
sequence. -/
theorem claimC1_replica_invariant_witness :
    ClaimC1Inv ⟨[("r", ⟨"i", "c", 2⟩)], [("i", [("c", ["r"])])]⟩ :=
  claimC1_replica_invariant [RoomOp.set "i" "c" "r" 2]
    ⟨[("r", ⟨"i", "c", 2⟩)], [("i", [("c", ["r"])])]⟩
    (fun _ => ("i", "c"))
    (by
      intro op hop
      rw [List.mem_singleton] at hop
      subst hop
      rfl)
    (by decide)

/-- C10: deleteRoomCount called with a roomId absent from flat returns
without throwing and leaves flat and tree entirely unchanged. -/
theorem claimC10_delete_absent_noop (roomId : String) (st : Rooms)
    (h : alookup st.flat roomId = none) :
    deleteRoomCount roomId st = some st := by
  unfold deleteRoomCount
  rw [h]

/-- C10 witness: deleting an unknown room from a nonempty replica is a
no-op. -/
theorem claimC10_delete_absent_noop_witness :
    alookup (Rooms.mk [("r", ⟨"i", "c", 1⟩)] [("i", [("c", ["r"])])]).flat "x" = none ∧
    deleteRoomCount "x" ⟨[("r", ⟨"i", "c", 1⟩)], [("i", [("c", ["r"])])]⟩ =
      some ⟨[("r", ⟨"i", "c", 1⟩)], [("i", [("c", ["r"])])]⟩ :=
  ⟨by decide,
   claimC10_delete_absent_noop "x" ⟨[("r", ⟨"i", "c", 1⟩)], [("i", [("c", ["r"])])]⟩
     (by decide)⟩

/-!
The realtime.count override (src/lib/cluster/index.js lines 646-670).
-/

/-- Body of a count request; roomId none models a body object without a
roomId own-property. -/
structure CountRequestBody where
  roomId : Option String
deriving DecidableEq, Repr

/-- Input of a count request; body none models request.input.body missing. -/
structure CountRequest where
  body : Option CountRequestBody
deriving DecidableEq, Repr

/-- Settlement of the promise returned by the count override. -/
inductive CountResult where
  | ok (count : Int)
  | badRequest (message : String)
  | notFound (message : String)
deriving DecidableEq, Repr

/-- KuzzleCluster._realtimeCountOverride (lines 646-670). The replica can be
refreshed by a sync while the override waits, so flats gives the flat map
observed at each attempt; the attempt counter mirrors the source, retrying
exactly once after the waitForMissingRooms delay. -/
def realtimeCountOverride (flats : Nat → AList String Room)
    (request : CountRequest) (attempt : Nat) : CountResult :=
  match request.body with
  | none => .badRequest "The request must specify a body."
  | some body =>
    match body.roomId with
    | none => .badRequest "The request must specify a body attribute \x22roomId\x22."
    | some roomId =>
      match alookup (flats attempt) roomId with
      | some room => .ok room.count
      | none =>
        if h : attempt > 0 then
          .notFound ("The room Id \x22" ++ roomId ++ "\x22 does not exist")
        else
          realtimeCountOverride flats request (attempt + 1)
termination_by 1 - attempt
decreasing_by omega

/-- C3: with a roomId in the body, the count override answers from flat when
the room is known; when it is unknown it waits and retries exactly once
against the refreshed replica, and answers notFound only when the room is
still missing on that single retry. -/
theorem claimC3_count_override (flats : Nat → AList String Room)
    (req : CountRequest) (body : CountRequestBody) (roomId : String)
    (hbody : req.body = some body) (hroom : body.roomId = some roomId) :
    (∀ room, alookup (flats 0) roomId = some room →
      realtimeCountOverride flats req 0 = .ok room.count) ∧
    (alookup (flats 0) roomId = none →
      (∀ room, alookup (flats 1) roomId = some room →
        realtimeCountOverride flats req 0 = .ok room.count) ∧
      (alookup (flats 1) roomId = none →
        realtimeCountOverride flats req 0 =
          .notFound ("The room Id \x22" ++ roomId ++ "\x22 does not exist"))) := by
  constructor
  · intro room hfound
    simp [realtimeCountOverride, hbody, hroom, hfound]
  · intro hmiss
    constructor
    · intro room hfound
      simp [realtimeCountOverride, hbody, hroom, hmiss, hfound]
    · intro hmiss1
      simp [realtimeCountOverride, hbody, hroom, hmiss, hmiss1]

/-- C3 witness: a room present at the first attempt resolves with its count;
the instantiating replica holds the room with count 4. -/
theorem claimC3_count_override_witness :
    realtimeCountOverride (fun _ => [("r", ⟨"i", "c", 4⟩)]) ⟨some ⟨some "r"⟩⟩ 0 =
      .ok 4 :=
  (claimC3_count_override (fun _ => [("r", ⟨"i", "c", 4⟩)]) ⟨some ⟨some "r"⟩⟩
    ⟨some "r"⟩ "r" rfl rfl).1 ⟨"i", "c", 4⟩ (by decide)

/-- C4: a request without a body, or whose body has no roomId attribute, is
rejected with a BadRequestError by the count override. -/
theorem claimC4_count_validation (flats : Nat → AList String Room)
    (req : CountRequest) (attempt : Nat) :
    (req.body = none →
      realtimeCountOverride flats req attempt =
        .badRequest "The request must specify a body.") ∧
    (∀ body, req.body = some body → body.roomId = none →
      realtimeCountOverride flats req attempt =
        .badRequest "The request must specify a body attribute \x22roomId\x22.") := by
  constructor
  · intro hnone
    simp [realtimeCountOverride, hnone]
  · intro body hbody hroom
    simp [realtimeCountOverride, hbody, hroom]

/-- C4 witness: both validation rejections at concrete requests. -/
theorem claimC4_count_validation_witness :
    realtimeCountOverride (fun _ => []) ⟨none⟩ 0 =
      .badRequest "The request must specify a body." ∧
    realtimeCountOverride (fun _ => []) ⟨some ⟨none⟩⟩ 0 =
      .badRequest "The request must specify a body attribute \x22roomId\x22." :=
  ⟨(claimC4_count_validation (fun _ => []) ⟨none⟩ 0).1 rfl,
   (claimC4_count_validation (fun _ => []) ⟨some ⟨none⟩⟩ 0).2 ⟨none⟩ rfl rfl⟩

/-!
Hook and pipe handlers.  Redis script calls and node broadcasts are
observable effects; the outcome of a coordinator round trip is an input of
the handler (none models a rejected call).
-/

/-- Observable external effects of a handler run, in program order. -/
inductive Eff where
  | subOnCall (tag uuid roomId connectionId filter : String)
  | subOffCall (tag uuid roomId connectionId : String)
  | saddCollections (entry : String)
  | sremDiscovery (pub router : String)
  | cleanNodeCall (tag uuid : String)
  | stateReset
  | bSyncState (index collection roomId post : String)
  | bSyncAll
  | bSyncId (event id : String)
  | bSyncEvent (event : String)
  | bSyncIndexCache (event index collection scope : String)
  | bNotifyDocument (data : String)
  | bNotifyUser (data : String)
  | bAdmin (topic : String)
  | bAdminDump (suffix : String)
deriving DecidableEq, Repr

/-- Local node state visible to the handlers. versions models the per-tag
version map of the state replica module (not part of the sources). -/
structure NodeState where
  ready : Bool
  uuid : String
  pub : String
  router : String
  rooms : Rooms
  versions : AList (String × String) Int
  locksCreate : List String
  locksDelete : List String
  poolSize : Nat
  shutdownFlag : Bool
deriving DecidableEq, Repr

/-- Modelled from the spec: State.getVersion (spec section 4.4) — the state
replica module node/state.js is not under the sources; the spec says it
"returns the last observed version, zero if unknown". -/
def getVersion (st : NodeState) (index collection : String) : Int :=
  (alookup st.versions (index, collection)).getD 0

/-- Co-location hash tag of the form brace index slash collection brace,
as built inline by the handlers. -/
def tagKey (index collection : String) : String :=
  "\x7b" ++ index ++ "/" ++ collection ++ "\x7d"

/-- Diff delivered to the subscription pipes. -/
structure Diff where
  index : String
  collection : String
  filters : Option String
  roomId : String
  connectionId : String
  changed : Option Bool
deriving DecidableEq, Repr

/-- Serialized filter sent to subOn: JSON text of the filter object when
filters is truthy, the literal string none otherwise
(src/lib/cluster/index.js line 351). The JSON encoding itself is modelled
as a plain concatenation; no claim depends on its shape. -/
def serializedFilterOf (d : Diff) : String :=
  match d.filters with
  | none => "none"
  | some f => d.index ++ "/" ++ d.collection ++ "/" ++ f

/-- Argument of subscriptionOff: object.room and the requesting connection. -/
structure OffObject where
  roomId : String
  index : String
  collection : String
  connectionId : String
deriving DecidableEq, Repr

/-- KuzzleCluster._onSubOn (lines 606-628): apply the returned count through
setRoomCount only when the local version is stale, then broadcast the state
sync event; none where setRoomCount throws. -/
def onSubOn (type index collection roomId : String) (result : Int × Int)
    (st : NodeState) : Option (NodeState × Eff) :=
  (if getVersion st index collection < result.1 then
      setRoomCount index collection roomId result.2 st.rooms
    else some st.rooms).map
    (fun rooms1 =>
      ({st with rooms := rooms1}, Eff.bSyncState index collection roomId type))

/-- KuzzleCluster.subscriptionAdded (lines 336-370). outcome is the
settlement of the clusterSubOn call; the boolean of the result tells whether
the returned promise resolved (with the diff) rather than rejected. -/
def subscriptionAdded (st : NodeState) (diff : Diff)
    (outcome : Option (Int × Int)) : NodeState × List Eff × Bool :=
  if !st.ready then (st, [], true)
  else
    match outcome with
    | none =>
        ({st with locksCreate := sdel st.locksCreate diff.roomId},
         [Eff.subOnCall (tagKey diff.index diff.collection) st.uuid diff.roomId
            diff.connectionId (serializedFilterOf diff)],
         false)
    | some result =>
        match onSubOn "add" diff.index diff.collection diff.roomId result st with
        | none =>
            ({st with locksCreate := sdel st.locksCreate diff.roomId},
             [Eff.subOnCall (tagKey diff.index diff.collection) st.uuid diff.roomId
                diff.connectionId (serializedFilterOf diff),
              Eff.saddCollections (diff.index ++ "/" ++ diff.collection)],
             false)
        | some (st1, beff) =>
            ({st1 with locksCreate := sdel st1.locksCreate diff.roomId},
             [Eff.subOnCall (tagKey diff.index diff.collection) st.uuid diff.roomId
                diff.connectionId (serializedFilterOf diff),
              Eff.saddCollections (diff.index ++ "/" ++ diff.collection),
              beff],
             true)

/-- KuzzleCluster.subscriptionJoined (lines 372-400). -/
def subscriptionJoined (st : NodeState) (diff : Diff)
    (outcome : Option (Int × Int)) : NodeState × List Eff × Bool :=
  if !st.ready then (st, [], true)
  else if diff.changed = some false then (st, [], true)
  else
    match outcome with
    | none =>
        (st,
         [Eff.subOnCall (tagKey diff.index diff.collection) st.uuid diff.roomId
            diff.connectionId "none"],
         false)
    | some result =>
        match onSubOn "join" diff.index diff.collection diff.roomId result st with
        | none =>
            (st,
             [Eff.subOnCall (tagKey diff.index diff.collection) st.uuid diff.roomId
                diff.connectionId "none"],
             false)
        | some (st1, beff) =>
            (st1,
             [Eff.subOnCall (tagKey diff.index diff.collection) st.uuid diff.roomId
                diff.connectionId "none",
              beff],
             true)

/-- KuzzleCluster.subscriptionOff (lines 402-447). -/
def subscriptionOff (st : NodeState) (ob : OffObject)
    (outcome : Option (Int × Int)) : NodeState × List Eff × Bool :=
  if !st.ready then (st, [], true)
  else
    match outcome with
    | none =>
        ({st with locksDelete := sdel st.locksDelete ob.roomId},
         [Eff.subOffCall (tagKey ob.index ob.collection) st.uuid ob.roomId
            ob.connectionId],
         false)
    | some result =>
        match (if getVersion st ob.index ob.collection < result.1 then
                 setRoomCount ob.index ob.collection ob.roomId result.2 st.rooms
               else some st.rooms) with
        | none =>
            ({st with locksDelete := sdel st.locksDelete ob.roomId},
             [Eff.subOffCall (tagKey ob.index ob.collection) st.uuid ob.roomId
                ob.connectionId],
             false)
        | some rooms1 =>
            ({st with rooms := rooms1,
                      locksDelete := sdel st.locksDelete ob.roomId},
             [Eff.subOffCall (tagKey ob.index ob.collection) st.uuid ob.roomId
                ob.connectionId,
              Eff.bSyncState ob.index ob.collection ob.roomId "off"],
             true)

/-!
Broadcast-only hook handlers (lines 170-197, 243-300, 473-495).
-/

/-- Hook for core:indexCache:add (lines 170-180). -/
def indexCacheAdded (st : NodeState) (index collection scope : String) :
    NodeState × List Eff :=
  if !st.ready then (st, [])
  else (st, [Eff.bSyncIndexCache "indexCache:add" index collection scope])

/-- Hook for core:indexCache:remove (lines 187-197). -/
def indexCacheRemoved (st : NodeState) (index collection scope : String) :
    NodeState × List Eff :=
  if !st.ready then (st, [])
  else (st, [Eff.bSyncIndexCache "indexCache:remove" index collection scope])

/-- Hook for core:notify:document (lines 243-250). -/
def notifyDocument (st : NodeState) (data : String) : NodeState × List Eff :=
  if !st.ready then (st, [])
  else (st, [Eff.bNotifyDocument data])

/-- Hook for core:notify:user (lines 252-259). -/
def notifyUser (st : NodeState) (data : String) : NodeState × List Eff :=
  if !st.ready then (st, [])
  else (st, [Eff.bNotifyUser data])

/-- Hook for profile repository changes (lines 264-274). -/
def profileUpdated (st : NodeState) (id : String) : NodeState × List Eff :=
  if !st.ready then (st, [])
  else (st, [Eff.bSyncId "profile" id])

/-- Hook for role repository changes (lines 290-300). -/
def roleUpdated (st : NodeState) (id : String) : NodeState × List Eff :=
  if !st.ready then (st, [])
  else (st, [Eff.bSyncId "role" id])

/-- Hook for specification changes (lines 276-285). -/
def refreshSpecifications (st : NodeState) : NodeState × List Eff :=
  if !st.ready then (st, [])
  else (st, [Eff.bSyncEvent "validators"])

/-- Hook for admin:afterResetSecurity (lines 473-475): broadcasts without
any readiness guard. -/
def resetSecurityCache (st : NodeState) : NodeState × List Eff :=
  (st, [Eff.bAdmin "cluster:admin:resetSecurity"])

/-- Hook for admin:afterDump (lines 477-486); the argument is
request.input.args.suffix, defaulted to the empty string when falsy. -/
def dump (st : NodeState) (suffix : Option String) : NodeState × List Eff :=
  if !st.ready then (st, [])
  else (st, [Eff.bAdminDump (suffix.getD "")])

/-- Hook for admin:afterShutdown (lines 488-495). -/
def shutdown (st : NodeState) : NodeState × List Eff :=
  if !st.ready then (st, [])
  else (st, [Eff.bAdmin "cluster:admin:shutdown"])

/-!
Node cleanup (lines 505-531) and the shutdown supervisor (lines 630-639).
-/

/-- KuzzleCluster.cleanNode: remove the node from discovery, then either
reset the state (when the node itself leaves last) or sweep every known
tag, and finally broadcast a full state refresh. isSelf models the
node === this.node comparison. -/
def cleanNode (st : NodeState) (isSelf : Bool)
    (nodeUuid nodePub nodeRouter : String) : List Eff :=
  Eff.sremDiscovery nodePub nodeRouter ::
  (if isSelf ∧ st.poolSize = 0 then
      [Eff.stateReset]
    else
      (st.rooms.tree.map (fun p =>
        p.2.map (fun q => Eff.cleanNodeCall (tagKey p.1 q.1) nodeUuid))).flatten)
  ++ [Eff.bSyncAll]

/-- KuzzleCluster._onShutDown: at-most-once guard around cleanNode(this.node). -/
def onShutDown (st : NodeState) : NodeState × List Eff :=
  if st.shutdownFlag then (st, [])
  else ({st with shutdownFlag := true},
        cleanNode st true st.uuid st.pub st.router)

theorem not_mem_sdel_self (l : List κ) (x : κ) : x ∉ sdel l x := by
  simp [sdel]

/-- Sample ready node used by concrete instantiations; both lock sets hold
the room id r. -/
def nodeA : NodeState :=
  { ready := true, uuid := "u", pub := "p", router := "rt", rooms := emptyRooms,
    versions := [], locksCreate := ["r"], locksDelete := ["r"], poolSize := 0,
    shutdownFlag := false }

/-- Same node before it joined the cluster. -/
def nodeNotReady : NodeState := { nodeA with ready := false }

/-- C2: a subOn or subOff result [version, count] is applied to the local
replica through setRoomCount exactly when the locally stored version of the
tag is strictly below the returned version; otherwise that result leaves
the replica unchanged. -/
theorem claimC2_version_guard (type index collection roomId : String)
    (v cnt : Int) (st : NodeState) (ob : OffObject) :
    (getVersion st index collection < v →
      (onSubOn type index collection roomId (v, cnt) st).map (fun p => p.1.rooms) =
        setRoomCount index collection roomId cnt st.rooms) ∧
    (¬ getVersion st index collection < v →
      onSubOn type index collection roomId (v, cnt) st =
        some (st, Eff.bSyncState index collection roomId type)) ∧
    (st.ready = true → getVersion st ob.index ob.collection < v →
      ∀ rooms1,
        setRoomCount ob.index ob.collection ob.roomId cnt st.rooms = some rooms1 →
        (subscriptionOff st ob (some (v, cnt))).1.rooms = rooms1) ∧
    (st.ready = true → ¬ getVersion st ob.index ob.collection < v →
      subscriptionOff st ob (some (v, cnt)) =
        ({st with locksDelete := sdel st.locksDelete ob.roomId},
         [Eff.subOffCall (tagKey ob.index ob.collection) st.uuid ob.roomId
            ob.connectionId,
          Eff.bSyncState ob.index ob.collection ob.roomId "off"],
         true)) := by
  refine ⟨?_, ?_, ?_, ?_⟩
  · intro h
    unfold onSubOn
    rw [if_pos h]
    cases hset : setRoomCount index collection roomId cnt st.rooms <;>
      simp [hset]
  · intro h
    unfold onSubOn
    rw [if_neg h]
    rfl
  · intro hready h rooms1 hset
    simp only [subscriptionOff, hready, Bool.not_true, Bool.false_eq_true,
      if_false, if_pos h, hset]
  · intro hready h
    simp only [subscriptionOff, hready, Bool.not_true, Bool.false_eq_true,
      if_false, if_neg h]

/-- C2 witness: the guard applied on a node with no recorded version (local
version 0): a result with version 2 is applied, a result with version 0 is
not. -/
theorem claimC2_version_guard_witness :
    (getVersion nodeA "i" "c" < 2 ∧
      (onSubOn "add" "i" "c" "r" (2, 5) nodeA).map (fun p => p.1.rooms) =
        setRoomCount "i" "c" "r" 5 nodeA.rooms) ∧
    (¬ getVersion nodeA "i" "c" < 0 ∧
      onSubOn "add" "i" "c" "r" (0, 5) nodeA =
        some (nodeA, Eff.bSyncState "i" "c" "r" "add")) ∧
    (subscriptionOff nodeA ⟨"r", "i", "c", "conn"⟩ (some (0, 5))).1.rooms =
      nodeA.rooms :=
  ⟨⟨by decide,
    (claimC2_version_guard "add" "i" "c" "r" 2 5 nodeA ⟨"r", "i", "c", "conn"⟩).1
      (by decide)⟩,
   ⟨by decide,
    (claimC2_version_guard "add" "i" "c" "r" 0 5 nodeA ⟨"r", "i", "c", "conn"⟩).2.1
      (by decide)⟩,
   by
    rw [(claimC2_version_guard "add" "i" "c" "r" 0 5 nodeA
      ⟨"r", "i", "c", "conn"⟩).2.2.2 rfl (by decide)]⟩

/-- Effect predicate: a write to the cluster:collections set. -/
def isSaddCollections : Eff → Bool
  | .saddCollections _ => true
  | _ => false

/-- Rename the post field of the state broadcast from add to join. -/
def renamePost : Eff → Eff
  | .bSyncState i c r "add" => .bSyncState i c r "join"
  | e => e

/-- C5 counterexample: on a ready node with the room id locked for
creation, a changed join runs to completion without ever adding the
index/collection entry to cluster:collections and without releasing
locks.create, contrary to the claimed parity with subscriptionAdded. -/
theorem claimC5_counterexample :
    Eff.saddCollections "i/c" ∉
      (subscriptionJoined nodeA ⟨"i", "c", none, "r", "conn", some true⟩
        (some (1, 1))).2.1 ∧
    "r" ∈ (subscriptionJoined nodeA ⟨"i", "c", none, "r", "conn", some true⟩
        (some (1, 1))).1.locksCreate := by
  decide

/-- C5 (amended): a join diff with changed false resolves with the diff and
has no effect; any other join diff behaves exactly like subscriptionAdded
on the diff with filters cleared, except that no cluster:collections entry
is added, locks.create is left untouched, and the state broadcast carries
post join instead of post add. -/
theorem claimC5_joined_behaviour (st : NodeState) (diff : Diff)
    (outcome : Option (Int × Int)) (hready : st.ready = true) :
    (diff.changed = some false → subscriptionJoined st diff outcome = (st, [], true)) ∧
    (diff.changed ≠ some false →
      subscriptionJoined st diff outcome =
        ({ (subscriptionAdded st { diff with filters := none } outcome).1 with
            locksCreate := st.locksCreate },
         ((subscriptionAdded st { diff with filters := none } outcome).2.1.filter
            (fun e => !(isSaddCollections e))).map renamePost,
         (subscriptionAdded st { diff with filters := none } outcome).2.2)) := by
  constructor
  · intro hch
    simp [subscriptionJoined, hready, hch]
  · intro hch
    have hc : ¬((!st.ready) = true) := by simp [hready]
    unfold subscriptionJoined subscriptionAdded
    rw [if_neg hc, if_neg hch, if_neg hc]
    cases outcome with
    | none => rfl
    | some result =>
        unfold onSubOn
        dsimp only
        cases hopt : (if getVersion st diff.index diff.collection < result.1 then
            setRoomCount diff.index diff.collection diff.roomId result.2 st.rooms
          else some st.rooms) with
        | none => rfl
        | some rooms1 => rfl

/-- C5 witness: the amended theorem at a concrete changed join on a ready
node. -/
theorem claimC5_joined_behaviour_witness :
    subscriptionJoined nodeA ⟨"i", "c", none, "r", "conn", some true⟩
        (some (1, 1)) =
      ({ (subscriptionAdded nodeA
            { Diff.mk "i" "c" none "r" "conn" (some true) with filters := none }
            (some (1, 1))).1 with
          locksCreate := nodeA.locksCreate },
       ((subscriptionAdded nodeA
            { Diff.mk "i" "c" none "r" "conn" (some true) with filters := none }
            (some (1, 1))).2.1.filter
          (fun e => !(isSaddCollections e))).map renamePost,
       (subscriptionAdded nodeA
            { Diff.mk "i" "c" none "r" "conn" (some true) with filters := none }
            (some (1, 1))).2.2) :=
  (claimC5_joined_behaviour nodeA ⟨"i", "c", none, "r", "conn", some true⟩
    (some (1, 1)) rfl).2 (by decide)

/-- C6 counterexample: resetSecurityCache has no readiness guard — on a
node that is not ready it still emits its admin broadcast. -/
theorem claimC6_counterexample :
    (resetSecurityCache nodeNotReady).2 ≠ [] := by
  decide

/-- C6 (amended): when node.ready is false every broadcast-only hook
handler except resetSecurityCache drops the event without effects or state
change; resetSecurityCache broadcasts unconditionally. -/
theorem claimC6_not_ready_drop (st : NodeState)
    (index collection scope data id : String) (suffix : Option String)
    (h : st.ready = false) :
    indexCacheAdded st index collection scope = (st, []) ∧
    indexCacheRemoved st index collection scope = (st, []) ∧
    notifyDocument st data = (st, []) ∧
    notifyUser st data = (st, []) ∧
    profileUpdated st id = (st, []) ∧
    roleUpdated st id = (st, []) ∧
    refreshSpecifications st = (st, []) ∧
    dump st suffix = (st, []) ∧
    shutdown st = (st, []) ∧
    resetSecurityCache st = (st, [Eff.bAdmin "cluster:admin:resetSecurity"]) := by
  simp [indexCacheAdded, indexCacheRemoved, notifyDocument, notifyUser,
    profileUpdated, roleUpdated, refreshSpecifications, dump, shutdown,
    resetSecurityCache, h]

/-- C6 witness: the amended theorem on a concrete not-ready node. -/
theorem claimC6_not_ready_drop_witness :
    indexCacheAdded nodeNotReady "i" "c" "s" = (nodeNotReady, []) ∧
    notifyDocument nodeNotReady "d" = (nodeNotReady, []) ∧
    shutdown nodeNotReady = (nodeNotReady, []) ∧
    resetSecurityCache nodeNotReady =
      (nodeNotReady, [Eff.bAdmin "cluster:admin:resetSecurity"]) := by
  have h := claimC6_not_ready_drop nodeNotReady "i" "c" "s" "d" "x" none rfl
  exact ⟨h.1, h.2.2.1, h.2.2.2.2.2.2.2.2.1, h.2.2.2.2.2.2.2.2.2⟩

/-- C7 counterexample: on a node that is not ready, both pipes resolve
immediately and the lock entries survive the settlement of the returned
promise. -/
theorem claimC7_counterexample :
    "r" ∈ (subscriptionAdded nodeNotReady ⟨"i", "c", none, "r", "conn", none⟩
        (some (1, 1))).1.locksCreate ∧
    "r" ∈ (subscriptionOff nodeNotReady ⟨"r", "i", "c", "conn"⟩
        (some (1, 1))).1.locksDelete := by
  decide

/-- C7 (amended): on a ready node, once the promise of subscriptionAdded or
subscriptionOff settles — whether the coordinator write succeeded, the
write failed, or the replica update threw — the room id has been removed
from locks.create respectively locks.delete. -/
theorem claimC7_lock_release (st : NodeState) (diff : Diff) (ob : OffObject)
    (outcome outcome2 : Option (Int × Int)) (h : st.ready = true) :
    diff.roomId ∉ (subscriptionAdded st diff outcome).1.locksCreate ∧
    ob.roomId ∉ (subscriptionOff st ob outcome2).1.locksDelete := by
  constructor
  · simp only [subscriptionAdded, h, Bool.not_true, Bool.false_eq_true, if_false]
    cases outcome with
    | none => exact not_mem_sdel_self _ _
    | some result =>
        dsimp only
        cases honSub : onSubOn "add" diff.index diff.collection diff.roomId result st with
        | none => exact not_mem_sdel_self _ _
        | some p =>
            obtain ⟨st1, beff⟩ := p
            exact not_mem_sdel_self _ _
  · simp only [subscriptionOff, h, Bool.not_true, Bool.false_eq_true, if_false]
    cases outcome2 with
    | none => exact not_mem_sdel_self _ _
    | some result =>
        dsimp only
        cases hopt : (if getVersion st ob.index ob.collection < result.1 then
            setRoomCount ob.index ob.collection ob.roomId result.2 st.rooms
          else some st.rooms) with
        | none => exact not_mem_sdel_self _ _
        | some rooms1 => exact not_mem_sdel_self _ _

/-- C7 witness: the amended theorem at concrete inputs on a ready node
whose lock sets hold the room id. -/
theorem claimC7_lock_release_witness :
    "r" ∉ (subscriptionAdded nodeA ⟨"i", "c", none, "r", "conn", none⟩
        (some (1, 1))).1.locksCreate ∧
    "r" ∉ (subscriptionOff nodeA ⟨"r", "i", "c", "conn"⟩
        (some (1, 1))).1.locksDelete :=
  claimC7_lock_release nodeA ⟨"i", "c", none, "r", "conn", none⟩
    ⟨"r", "i", "c", "conn"⟩ (some (1, 1)) (some (1, 1)) rfl

/-- C9: on the shutdown path, cleaning this node itself while the peer pool
is empty resets the state and issues no clusterCleanNode script call; the
shutdown supervisor invokes exactly cleanNode on this node. -/
theorem claimC9_last_node_out (st : NodeState) (hpool : st.poolSize = 0)
    (hflag : st.shutdownFlag = false) :
    Eff.stateReset ∈ cleanNode st true st.uuid st.pub st.router ∧
    (∀ t u, Eff.cleanNodeCall t u ∉ cleanNode st true st.uuid st.pub st.router) ∧
    onShutDown st =
      ({st with shutdownFlag := true},
       cleanNode st true st.uuid st.pub st.router) := by
  refine ⟨?_, ?_, ?_⟩
  · simp [cleanNode, hpool]
  · intro t u
    simp [cleanNode, hpool]
  · simp [onShutDown, hflag]

/-- C9 witness: the concrete last node resets and issues no cleanNode
script call at shutdown. -/
theorem claimC9_last_node_out_witness :
    Eff.stateReset ∈ cleanNode nodeA true nodeA.uuid nodeA.pub nodeA.router ∧
    Eff.cleanNodeCall (tagKey "i" "c") "u" ∉
      cleanNode nodeA true nodeA.uuid nodeA.pub nodeA.router :=
  ⟨(claimC9_last_node_out nodeA rfl rfl).1,
   (claimC9_last_node_out nodeA rfl rfl).2.1 (tagKey "i" "c") "u"⟩

/-!
The realtime.list override (src/lib/cluster/index.js lines 676-730).
Objects of the shape index to collection to roomId to count are modelled as
nested association lists in key insertion order.
-/

/-- Result shape of the list override. -/
abbrev NestedList := AList String (AList String (AList String Int))

/-- Read list[index][collection][roomId]; none when any level is absent. -/
def nestedLookup (l : NestedList) (i c r : String) : Option Int :=
  alookup ((alookup ((alookup l i).getD []) c).getD []) r

/-- Write list[index][collection][roomId] = count, creating the missing
levels (lines 693-699). -/
def nestedInsert (acc : NestedList) (i c r : String) (v : Int) : NestedList :=
  aset acc i
    (aset ((alookup acc i).getD []) c
      (aset ((alookup ((alookup acc i).getD []) c).getD []) r v))

/-- One iteration of the room loop (lines 681-702): insert the room when the
caller may document:search on its index and collection. -/
def listStep (allowed : String → String → Bool) (acc : NestedList)
    (p : String × Room) : NestedList :=
  if allowed p.2.index p.2.collection then
    nestedInsert acc p.2.index p.2.collection p.1 p.2.count
  else acc

/-- Accumulation of the unsorted list object; the settlement order of the
permission promises only affects key order and is modelled as the flat
iteration order. -/
def buildList (flat : AList String Room) (allowed : String → String → Bool) :
    NestedList :=
  flat.foldl (listStep allowed) []

/-- Insertion step of the key sort. -/
def insortKey {α : Type} (p : String × α) : AList String α → AList String α
  | [] => [p]
  | q :: rest => if p.1 ≤ q.1 then p :: q :: rest else q :: insortKey p rest

/-- Rebuild an object with its keys in sorted order, as
Object.keys(x).sort() followed by ordered reinsertion does. -/
def sortByKey {α : Type} (l : AList String α) : AList String α :=
  l.foldr insortKey []

/-- Sort the collection level and each room level of one index entry. -/
def sortInner (cs : AList String (AList String Int)) :
    AList String (AList String Int) :=
  (sortByKey cs).map (fun q => (q.1, sortByKey q.2))

/-- The sorted variant (lines 710-728): keys sorted at every level. -/
def sortNested (l : NestedList) : NestedList :=
  (sortByKey l).map (fun p => (p.1, sortInner p.2))

/-- KuzzleCluster._realtimeListOverride (lines 676-730), parameterized by
the permission oracle answering isActionAllowed for document:search. -/
def realtimeListOverride (flat : AList String Room)
    (allowed : String → String → Bool) (sorted : Bool) : NestedList :=
  if sorted then sortNested (buildList flat allowed)
  else buildList flat allowed

theorem alookup_mem (l : AList κ α) (k : κ) (v : α)
    (h : alookup l k = some v) : (k, v) ∈ l := by
  induction l with
  | nil => simp [alookup] at h
  | cons p rest ih =>
      obtain ⟨k₀, w⟩ := p
      rw [alookup] at h
      by_cases hk : k₀ = k
      · rw [if_pos hk] at h
        cases h
        subst hk
        exact List.mem_cons_self _ _
      · rw [if_neg hk] at h
        exact List.mem_cons_of_mem _ (ih h)

theorem alookup_of_mem (l : AList κ α) (k : κ) (v : α) (hnd : KeysNodup l)
    (h : (k, v) ∈ l) : alookup l k = some v := by
  induction l with
  | nil => cases h
  | cons p rest ih =>
      obtain ⟨k₀, w⟩ := p
      rw [KeysNodup, akeys] at hnd
      simp only [List.map_cons, List.nodup_cons] at hnd
      obtain ⟨hk₀, hrest⟩ := hnd
      rcases List.mem_cons.mp h with heq | hmem
      · cases heq
        rw [alookup, if_pos rfl]
      · have hk : k₀ ≠ k := by
          intro h2
          subst h2
          exact hk₀ (List.mem_map_of_mem Prod.fst hmem)
        rw [alookup, if_neg hk]
        exact ih hrest hmem

omit [DecidableEq κ] in
theorem keysNodup_of_perm (l l' : AList κ α) (hp : l.Perm l')
    (hnd : KeysNodup l) : KeysNodup l' :=
  ((hp.map Prod.fst).nodup_iff).mp hnd

theorem alookup_eq_of_perm (l l' : AList κ α) (hnd : KeysNodup l)
    (hp : l.Perm l') (k : κ) : alookup l' k = alookup l k := by
  cases hEq : alookup l k with
  | some v =>
      exact alookup_of_mem l' k v (keysNodup_of_perm l l' hp hnd)
        (hp.mem_iff.mp (alookup_mem l k v hEq))
  | none =>
      rw [alookup_eq_none] at hEq ⊢
      intro hmem
      exact hEq (((hp.map Prod.fst).mem_iff).mpr hmem)

theorem mem_aset_elim (l : AList κ α) (k : κ) (v : α) (q : κ × α)
    (h : q ∈ aset l k v) : q ∈ l ∨ q = (k, v) := by
  induction l with
  | nil =>
      simp [aset] at h
      exact Or.inr h
  | cons p rest ih =>
      obtain ⟨k₀, w⟩ := p
      unfold aset at h
      by_cases hk : k₀ = k
      · rw [if_pos hk] at h
        rcases List.mem_cons.mp h with heq | hmem
        · subst hk
          exact Or.inr heq
        · exact Or.inl (List.mem_cons_of_mem _ hmem)
      · rw [if_neg hk] at h
        rcases List.mem_cons.mp h with heq | hmem
        · exact Or.inl (heq ▸ List.mem_cons_self _ _)
        · rcases ih hmem with h1 | h1
          · exact Or.inl (List.mem_cons_of_mem _ h1)
          · exact Or.inr h1

theorem insortKey_perm {α : Type} (p : String × α) (l : AList String α) :
    (insortKey p l).Perm (p :: l) := by
  induction l with
  | nil => exact List.Perm.refl _
  | cons q rest ih =>
      unfold insortKey
      by_cases h : p.1 ≤ q.1
      · rw [if_pos h]
      · rw [if_neg h]
        exact (ih.cons q).trans (List.Perm.swap p q rest)

theorem sortByKey_perm {α : Type} (l : AList String α) : (sortByKey l).Perm l := by
  induction l with
  | nil => exact List.Perm.refl _
  | cons p rest ih =>
      unfold sortByKey
      rw [List.foldr_cons]
      exact (insortKey_perm p (List.foldr insortKey [] rest)).trans (ih.cons p)

theorem insortKey_sorted {α : Type} (p : String × α) (l : AList String α)
    (h : l.Pairwise (fun a b => a.1 ≤ b.1)) :
    (insortKey p l).Pairwise (fun a b => a.1 ≤ b.1) := by
  induction l with
  | nil => simp [insortKey]
  | cons q rest ih =>
      rw [List.pairwise_cons] at h
      obtain ⟨hq, hrest⟩ := h
      unfold insortKey
      by_cases hle : p.1 ≤ q.1
      · rw [if_pos hle]
        rw [List.pairwise_cons]
        refine ⟨?_, List.pairwise_cons.mpr ⟨hq, hrest⟩⟩
        intro x hx
        rcases List.mem_cons.mp hx with heq | hmem
        · exact heq ▸ hle
        · exact le_trans hle (hq x hmem)
      · rw [if_neg hle]
        rw [List.pairwise_cons]
        refine ⟨?_, ih hrest⟩
        intro x hx
        rcases List.mem_cons.mp ((insortKey_perm p rest).mem_iff.mp hx) with heq | hmem
        · exact heq ▸ le_of_not_le hle
        · exact hq x hmem

theorem sortByKey_sorted {α : Type} (l : AList String α) :
    (sortByKey l).Pairwise (fun a b => a.1 ≤ b.1) := by
  induction l with
  | nil => simp [sortByKey]
  | cons p rest ih =>
      unfold sortByKey
      rw [List.foldr_cons]
      exact insortKey_sorted p _ ih

theorem alookup_map_snd {α β : Type} (g : α → β) (l : AList String α) (k : String) :
    alookup (l.map (fun p => (p.1, g p.2))) k = (alookup l k).map g := by
  induction l with
  | nil => rfl
  | cons p rest ih =>
      obtain ⟨k₀, w⟩ := p
      simp only [List.map_cons, alookup]
      by_cases h : k₀ = k
      · simp [h]
      · simp [h, ih]

theorem akeys_map_snd {α β : Type} (g : α → β) (l : AList String α) :
    akeys (l.map (fun p => (p.1, g p.2))) = akeys l := by
  induction l with
  | nil => rfl
  | cons p rest ih =>
      simp only [akeys, List.map_cons] at ih ⊢
      rw [ih]

theorem nestedLookup_nestedInsert (acc : NestedList) (i' c' r' : String)
    (v : Int) (i c r : String) :
    nestedLookup (nestedInsert acc i' c' r' v) i c r =
      if i = i' ∧ c = c' ∧ r = r' then some v else nestedLookup acc i c r := by
  unfold nestedLookup nestedInsert
  rw [alookup_aset]
  by_cases hi : i' = i
  · subst hi
    rw [if_pos rfl, Option.getD_some, alookup_aset]
    by_cases hc : c' = c
    · subst hc
      rw [if_pos rfl, Option.getD_some, alookup_aset]
      by_cases hr : r' = r
      · subst hr
        rw [if_pos rfl, if_pos ⟨rfl, rfl, rfl⟩]
      · rw [if_neg hr, if_neg (by rintro ⟨-, -, h⟩; exact hr h.symm)]
    · rw [if_neg hc, if_neg (by rintro ⟨-, h, -⟩; exact hc h.symm)]
  · rw [if_neg hi, if_neg (by rintro ⟨h, -, -⟩; exact hi h.symm)]

theorem buildList_lookup_notin (allowed : String → String → Bool)
    (r i c : String) :
    ∀ flat acc, alookup flat r = none →
      nestedLookup (List.foldl (listStep allowed) acc flat) i c r =
        nestedLookup acc i c r := by
  intro flat
  induction flat with
  | nil => intro acc _; rfl
  | cons p rest ih =>
      intro acc hmiss
      obtain ⟨k, room⟩ := p
      rw [alookup] at hmiss
      by_cases hk : k = r
      · rw [if_pos hk] at hmiss
        cases hmiss
      · rw [if_neg hk] at hmiss
        rw [List.foldl_cons, ih _ hmiss]
        unfold listStep
        by_cases hall : allowed room.index room.collection = true
        · rw [if_pos hall, nestedLookup_nestedInsert,
            if_neg (by rintro ⟨-, -, hrr⟩; exact hk hrr.symm)]
        · rw [if_neg hall]

theorem buildList_lookup_in (allowed : String → String → Bool)
    (r i c : String) (room : Room) :
    ∀ flat acc, KeysNodup flat → alookup flat r = some room →
      nestedLookup (List.foldl (listStep allowed) acc flat) i c r =
        if allowed room.index room.collection = true then
          (if i = room.index ∧ c = room.collection then some room.count
            else nestedLookup acc i c r)
        else nestedLookup acc i c r := by
  intro flat
  induction flat with
  | nil =>
      intro acc _ h
      rw [alookup] at h
      cases h
  | cons p rest ih =>
      intro acc hnd hfound
      obtain ⟨k, rm⟩ := p
      rw [KeysNodup, akeys] at hnd
      simp only [List.map_cons, List.nodup_cons] at hnd
      obtain ⟨hknotin, hrest⟩ := hnd
      rw [alookup] at hfound
      by_cases hk : k = r
      · rw [if_pos hk] at hfound
        cases hfound
        subst hk
        have hrest_none : alookup rest k = none :=
          (alookup_eq_none rest k).mpr hknotin
        rw [List.foldl_cons, buildList_lookup_notin allowed k i c rest _ hrest_none]
        unfold listStep
        by_cases hall : allowed room.index room.collection = true
        · rw [if_pos hall, if_pos hall, nestedLookup_nestedInsert]
          by_cases hic : i = room.index ∧ c = room.collection
          · rw [if_pos ⟨hic.1, hic.2, rfl⟩, if_pos hic]
          · rw [if_neg (by rintro ⟨h1, h2, -⟩; exact hic ⟨h1, h2⟩), if_neg hic]
        · rw [if_neg hall, if_neg hall]
      · rw [if_neg hk] at hfound
        rw [List.foldl_cons, ih _ hrest hfound]
        have hstep : nestedLookup (listStep allowed acc (k, rm)) i c r =
            nestedLookup acc i c r := by
          unfold listStep
          by_cases hall2 : allowed rm.index rm.collection = true
          · rw [if_pos hall2, nestedLookup_nestedInsert,
              if_neg (by rintro ⟨-, -, hrr⟩; exact hk hrr.symm)]
          · rw [if_neg hall2]
        rw [hstep]

theorem buildList_lookup (flat : AList String Room)
    (allowed : String → String → Bool) (hnd : KeysNodup flat)
    (i c r : String) (v : Int) :
    nestedLookup (buildList flat allowed) i c r = some v ↔
      alookup flat r = some ⟨i, c, v⟩ ∧ allowed i c = true := by
  unfold buildList
  cases hfound : alookup flat r with
  | none =>
      rw [buildList_lookup_notin allowed r i c flat [] hfound]
      simp [nestedLookup, alookup, hfound]
  | some room =>
      rw [buildList_lookup_in allowed r i c room flat [] hnd hfound]
      constructor
      · intro h
        by_cases hall : allowed room.index room.collection = true
        · rw [if_pos hall] at h
          by_cases hic : i = room.index ∧ c = room.collection
          · rw [if_pos hic] at h
            cases h
            refine ⟨?_, ?_⟩
            · rw [hic.1, hic.2]
            · rw [hic.1, hic.2]
              exact hall
          · rw [if_neg hic] at h
            simp [nestedLookup, alookup] at h
        · rw [if_neg hall] at h
          simp [nestedLookup, alookup] at h
      · rintro ⟨h1, h2⟩
        cases h1
        simp [h2]

/-- Unique keys on every level of the nested object. -/
def NestedWF (l : NestedList) : Prop :=
  KeysNodup l ∧ ∀ p ∈ l, KeysNodup p.2 ∧ ∀ q ∈ p.2, KeysNodup q.2

theorem colWF_of_nestedWF (l : NestedList) (h : NestedWF l) (i : String) :
    KeysNodup ((alookup l i).getD []) ∧
    ∀ q ∈ (alookup l i).getD [], KeysNodup q.2 := by
  cases hi : alookup l i with
  | none =>
      refine ⟨by simp [KeysNodup, akeys], ?_⟩
      intro q hq
      rw [Option.getD_none] at hq
      cases hq
  | some cs =>
      rw [Option.getD_some]
      exact ⟨(h.2 (i, cs) (alookup_mem _ _ _ hi)).1,
             (h.2 (i, cs) (alookup_mem _ _ _ hi)).2⟩

theorem roomsNodup_of_nestedWF (l : NestedList) (h : NestedWF l) (i c : String) :
    KeysNodup ((alookup ((alookup l i).getD []) c).getD []) := by
  obtain ⟨h1, h2⟩ := colWF_of_nestedWF l h i
  cases hc : alookup ((alookup l i).getD []) c with
  | none => simp [KeysNodup, akeys]
  | some rs =>
      rw [Option.getD_some]
      exact h2 (c, rs) (alookup_mem _ _ _ hc)

theorem nestedWF_nestedInsert (acc : NestedList) (i c r : String) (v : Int)
    (h : NestedWF acc) : NestedWF (nestedInsert acc i c r v) := by
  obtain ⟨hout, hin⟩ := h
  refine ⟨keysNodup_aset _ _ _ hout, ?_⟩
  intro p hp
  rcases mem_aset_elim _ _ _ _ hp with hmem | heq
  · exact hin p hmem
  · subst heq
    obtain ⟨hcsnd, hcsmem⟩ := colWF_of_nestedWF acc ⟨hout, hin⟩ i
    refine ⟨keysNodup_aset _ _ _ hcsnd, ?_⟩
    intro q hq
    rcases mem_aset_elim _ _ _ _ hq with hone | htwo
    · exact hcsmem q hone
    · subst htwo
      exact keysNodup_aset _ _ _ (roomsNodup_of_nestedWF acc ⟨hout, hin⟩ i c)

theorem nestedWF_buildList (flat : AList String Room)
    (allowed : String → String → Bool) : NestedWF (buildList flat allowed) := by
  unfold buildList
  have key : ∀ flat2 acc, NestedWF acc →
      NestedWF (List.foldl (listStep allowed) acc flat2) := by
    intro flat2
    induction flat2 with
    | nil => intro acc h; exact h
    | cons p rest ih =>
        intro acc h
        rw [List.foldl_cons]
        apply ih
        unfold listStep
        by_cases hall : allowed p.2.index p.2.collection = true
        · rw [if_pos hall]
          exact nestedWF_nestedInsert _ _ _ _ _ h
        · rw [if_neg hall]
          exact h
  apply key
  refine ⟨by simp [KeysNodup, akeys], ?_⟩
  intro p hp
  cases hp

theorem nestedLookup_sortNested (l : NestedList) (hwf : NestedWF l)
    (i c r : String) :
    nestedLookup (sortNested l) i c r = nestedLookup l i c r := by
  unfold sortNested nestedLookup
  rw [alookup_map_snd]
  rw [alookup_eq_of_perm l (sortByKey l) hwf.1 (sortByKey_perm l).symm i]
  cases hcs : alookup l i with
  | none => rfl
  | some cs =>
      have hcsmem := hwf.2 (i, cs) (alookup_mem _ _ _ hcs)
      simp only [Option.map_some', Option.getD_some]
      unfold sortInner
      rw [alookup_map_snd]
      rw [alookup_eq_of_perm cs (sortByKey cs) hcsmem.1 (sortByKey_perm cs).symm c]
      cases hrs : alookup cs c with
      | none => rfl
      | some rs =>
          have hrsnd := hcsmem.2 (c, rs) (alookup_mem _ _ _ hrs)
          simp only [Option.map_some', Option.getD_some]
          exact alookup_eq_of_perm rs (sortByKey rs) hrsnd
            (sortByKey_perm rs).symm r

theorem akeys_pairwise_lt {α : Type} (l : AList String α)
    (hs : l.Pairwise (fun a b => a.1 ≤ b.1)) (hnd : KeysNodup l) :
    (akeys l).Pairwise (fun a b => a < b) := by
  have h1 : (akeys l).Pairwise (fun a b => a ≤ b) := by
    rw [akeys, List.pairwise_map]
    exact hs
  have h2 : (akeys l).Pairwise (fun a b => a ≠ b) := hnd
  exact (h1.and h2).imp (fun h => lt_of_le_of_ne h.1 h.2)

/-- Keys in strictly increasing lexicographic order at every level. -/
def SortedNested (l : NestedList) : Prop :=
  (akeys l).Pairwise (fun a b => a < b) ∧
  ∀ p ∈ l, (akeys p.2).Pairwise (fun a b => a < b) ∧
    ∀ q ∈ p.2, (akeys q.2).Pairwise (fun a b => a < b)

theorem sortNested_sorted (l : NestedList) (hwf : NestedWF l) :
    SortedNested (sortNested l) := by
  obtain ⟨hout, hin⟩ := hwf
  constructor
  · rw [sortNested, akeys_map_snd]
    exact akeys_pairwise_lt _ (sortByKey_sorted l)
      (keysNodup_of_perm l (sortByKey l) (sortByKey_perm l).symm hout)
  · intro p hp
    rw [sortNested] at hp
    rcases List.mem_map.mp hp with ⟨a, ha, rfl⟩
    have hal : a ∈ l := (sortByKey_perm l).mem_iff.mp ha
    have hand := hin a hal
    constructor
    · rw [sortInner, akeys_map_snd]
      exact akeys_pairwise_lt _ (sortByKey_sorted _)
        (keysNodup_of_perm _ _ (sortByKey_perm _).symm hand.1)
    · intro q hq
      rw [sortInner] at hq
      rcases List.mem_map.mp hq with ⟨b, hb, rfl⟩
      have hbl : b ∈ a.2 := (sortByKey_perm a.2).mem_iff.mp hb
      exact akeys_pairwise_lt _ (sortByKey_sorted _)
        (keysNodup_of_perm _ _ (sortByKey_perm _).symm (hand.2 b hbl))

/-- C8: the realtime.list override result holds exactly the count entries
of the rooms whose (index, collection) the caller may document:search,
reachable at list[index][collection][roomId]; with the sorted flag the
result holds exactly the same entries with the keys of every level in
strictly increasing lexicographic order. -/
theorem claimC8_list_override (flat : AList String Room)
    (allowed : String → String → Bool) (hnd : KeysNodup flat)
    (i c r : String) (v : Int) :
    (nestedLookup (realtimeListOverride flat allowed false) i c r = some v ↔
      alookup flat r = some ⟨i, c, v⟩ ∧ allowed i c = true) ∧
    nestedLookup (realtimeListOverride flat allowed true) i c r =
      nestedLookup (realtimeListOverride flat allowed false) i c r ∧
    SortedNested (realtimeListOverride flat allowed true) := by
  refine ⟨?_, ?_, ?_⟩
  · exact buildList_lookup flat allowed hnd i c r v
  · show nestedLookup (sortNested (buildList flat allowed)) i c r =
      nestedLookup (buildList flat allowed) i c r
    exact nestedLookup_sortNested _ (nestedWF_buildList flat allowed) i c r
  · show SortedNested (sortNested (buildList flat allowed))
    exact sortNested_sorted _ (nestedWF_buildList flat allowed)

/-- C8 witness: the replica of spec scenario 4 — rooms R1=(i2,c2,4),
R2=(i1,c1,2), R3=(i1,c2,3), everything permitted — lists R2 with count 2 in
both variants and the sorted variant is sorted at every level. -/
theorem claimC8_list_override_witness :
    nestedLookup (realtimeListOverride
      [("R1", ⟨"i2", "c2", 4⟩), ("R2", ⟨"i1", "c1", 2⟩), ("R3", ⟨"i1", "c2", 3⟩)]
      (fun _ _ => true) false) "i1" "c1" "R2" = some 2 ∧
    nestedLookup (realtimeListOverride
      [("R1", ⟨"i2", "c2", 4⟩), ("R2", ⟨"i1", "c1", 2⟩), ("R3", ⟨"i1", "c2", 3⟩)]
      (fun _ _ => true) true) "i1" "c1" "R2" = some 2 ∧
    SortedNested (realtimeListOverride
      [("R1", ⟨"i2", "c2", 4⟩), ("R2", ⟨"i1", "c1", 2⟩), ("R3", ⟨"i1", "c2", 3⟩)]
      (fun _ _ => true) true) := by
  have h := claimC8_list_override
    [("R1", ⟨"i2", "c2", 4⟩), ("R2", ⟨"i1", "c1", 2⟩), ("R3", ⟨"i1", "c2", 3⟩)]
    (fun _ _ => true) (by unfold KeysNodup; decide) "i1" "c1" "R2" 2
  refine ⟨h.1.mpr ⟨by decide, rfl⟩, ?_, h.2.2⟩
  rw [h.2.1]
  exact h.1.mpr ⟨by decide, rfl⟩

end Cluster
